import Mathlib

/-!
Shallow embedding of the workflow-graph validation and editing logic of this
repository, together with proofs about it.

Embedded sources:
* frontend/app/components/workflow/WorkflowBuilder.tsx
  (validateWorkflow, detectCycle, handleNodeDeleted, handleEdgeAdded)
* frontend/app/workflow/[id]/page.tsx
  (validateWorkflow, detectCycle, handleRun, handleNodeDeleted)
* ai-agent-orchestration/src/components/workflow-designer.tsx
  (validateWorkflow, detectCycle, handleRunPreview, handleDeleteNode)
* the WorkflowCanvas component (handleConnectNodes)

Nodes carry an id, a display label (`data.label` in WorkflowBuilder,
`data.name` in the designer) and a type string (`type` / `data.type`).
Edges carry an id, a source node id and a target node id.
-/

structure WNode where
  id : String
  label : String
  typ : String
deriving DecidableEq

structure WEdge where
  eid : String
  source : String
  target : String
deriving DecidableEq

/-- Adjacency map built by `detectCycle`:
`edges.forEach(e => graph[e.source].push(e.target))`, so the neighbour list of
`n` is the list of targets of the edges whose source is `n`, in edge order. -/
def adj (edges : List WEdge) (n : String) : List String :=
  (edges.filter (fun e => e.source == n)).map (fun e => e.target)

/-!
The DFS of `detectCycle` in WorkflowBuilder.tsx / page.tsx (the two files
contain the same function verbatim):

```
function hasCycle(node) {
  if (!visited.has(node)) {
    visited.add(node);
    recStack.add(node);
    for (const neighbor of graph[node] || []) {
      if (!visited.has(neighbor) && hasCycle(neighbor)) return true;
      else if (recStack.has(neighbor)) return true;
    }
  }
  recStack.delete(node);
  return false;
}
```

The mutable sets `visited` and `recStack` are threaded explicitly as lists
(only membership is ever queried).  `dfsN` is one call of `hasCycle`;
`dfsLoop` is the `for` loop over a neighbour list, with the recursive call
passed in as `step` (the same loop occurs verbatim in the designer's DFS
below).  The JS recursion terminates because `visited` only grows inside a
finite universe of node ids; here a fuel argument plays that role.  Fuel is
consumed exactly when an unvisited node is entered, which adds a new element
to `visited`, so any fuel larger than the number of node ids occurring in the
graph is never exhausted; all entry points pass such a fuel (and on
exhaustion the embedding answers `true`, which the completeness lemmas below
never rely on).
-/

def dfsLoop
    (step : String → List String → List String → Bool × List String × List String) :
    List String → List String → List String → Bool × List String × List String
  | [], v, r => (false, v, r)
  | n :: ns, v, r =>
    if n ∈ v then
      if n ∈ r then (true, v, r) else dfsLoop step ns v r
    else
      match step n v r with
      | (true, v', r') => (true, v', r')
      | (false, v', r') => if n ∈ r' then (true, v', r') else dfsLoop step ns v' r'

def dfsN (g : String → List String) :
    Nat → String → List String → List String → Bool × List String × List String
  | 0 => fun _ v r => (true, v, r)
  | f + 1 => fun node v r =>
    if node ∈ v then (false, v, r.erase node)
    else
      match dfsLoop (dfsN g f) (g node) (node :: v) (node :: r) with
      | (true, v', r') => (true, v', r')
      | (false, v', r') => (false, v', r'.erase node)

/-- The outer loop of `detectCycle`:
`for (const node of nodes) { if (hasCycle(node.id)) return true; }`.
`visited` and `recStack` persist across iterations. -/
def detectOuter (g : String → List String) (fuel : Nat) :
    List WNode → List String → List String → Bool
  | [], _, _ => false
  | n :: ns, v, r =>
    match dfsN g fuel n.id v r with
    | (true, _, _) => true
    | (false, v', r') => detectOuter g fuel ns v' r'

def detectCycleB (nodes : List WNode) (edges : List WEdge) : Bool :=
  detectOuter (adj edges) (nodes.length + edges.length + 1) nodes [] []

/-!
The DFS of `detectCycle` in workflow-designer.tsx.  It differs from the one
above in three ways: the guard of the body is `!recStack.has(node)` instead of
`!visited.has(node)`, `visited.add` / `recStack.add` are genuine set
insertions, and the outer loop runs over the keys of the adjacency object
(the distinct edge sources, in first-occurrence order) and skips nodes that
are already visited.

```
const dfs = (node) => {
  if (!recStack.has(node)) {
    visited.add(node); recStack.add(node);
    for (const neighbor of graph[node] || []) {
      if (!visited.has(neighbor) && dfs(neighbor)) return true;
      else if (recStack.has(neighbor)) return true;
    }
  }
  recStack.delete(node); return false;
}
for (const node in graph) { if (!visited.has(node) && dfs(node)) return true; }
```
-/

/-- JS `Set.add`: insert if absent (only membership is ever queried). -/
def insertS (l : List String) (x : String) : List String :=
  if x ∈ l then l else x :: l

def dDfsN (g : String → List String) :
    Nat → String → List String → List String → Bool × List String × List String
  | 0 => fun _ v r => (true, v, r)
  | f + 1 => fun node v r =>
    if node ∈ r then (false, v, r.erase node)
    else
      match dfsLoop (dDfsN g f) (g node) (insertS v node) (insertS r node) with
      | (true, v', r') => (true, v', r')
      | (false, v', r') => (false, v', r'.erase node)

/-- Keys of the adjacency object `graph`, i.e. the distinct edge sources in
first-occurrence order (JS object keys are ordered by insertion). -/
def adjKeys (edges : List WEdge) : List String :=
  edges.foldl (fun acc e => if e.source ∈ acc then acc else acc ++ [e.source]) []

def dDetectOuter (g : String → List String) (fuel : Nat) :
    List String → List String → List String → Bool
  | [], _, _ => false
  | k :: ks, v, r =>
    if k ∈ v then dDetectOuter g fuel ks v r
    else
      match dDfsN g fuel k v r with
      | (true, _, _) => true
      | (false, v', r') => dDetectOuter g fuel ks v' r'

/-- `detectCycle` of workflow-designer.tsx, applied to the adjacency list that
`validateWorkflow` builds from the edge list. -/
def dDetectCycle (edges : List WEdge) : Bool :=
  dDetectOuter (adj edges) (2 * edges.length + 1) (adjKeys edges) [] []

/-! ### The structural checks shared by the validators -/

/-- The `connectedNodes` set:
`edges.forEach(e => { connectedNodes.add(e.source); connectedNodes.add(e.target); })`. -/
def connectedNodes (edges : List WEdge) : List String :=
  edges.foldl (fun s e => insertS (insertS s e.source) e.target) []

/-- `definition.nodes.filter(n => !connectedNodes.has(n.id))`. -/
def disconnectedNodesB (nodes : List WNode) (edges : List WEdge) : List WNode :=
  nodes.filter (fun n => decide (n.id ∉ connectedNodes edges))

/-- Start nodes: `nodes.filter(n => !edges.find(e => e.target === n.id))`
(nodes of in-degree 0). -/
def startNodesB (nodes : List WNode) (edges : List WEdge) : List WNode :=
  nodes.filter (fun n => !(edges.any (fun e => e.target == n.id)))

/-- End nodes (page.tsx only):
`nodes.filter(n => !edges.find(e => e.source === n.id))` (out-degree 0). -/
def endNodesP (nodes : List WNode) (edges : List WEdge) : List WNode :=
  nodes.filter (fun n => !(edges.any (fun e => e.source == n.id)))

/-! ### Error messages -/

def cycleMsg : String :=
  "Workflow contains a cycle - this will cause infinite loops!"

def discMsg (k : Nat) (labels : List String) : String :=
  "Found " ++ toString k ++ " disconnected node(s): " ++ String.intercalate ", " labels

def startMsg (k : Nat) : String :=
  "Found " ++ toString k ++ " start nodes. Workflows should have exactly one entry point."

def endMsg (k : Nat) : String :=
  "Found " ++ toString k ++ " end nodes. Consider using a single end node for clarity."

def dInputMsg : String := "Workflow must have an input node as the starting point"

def dOutputMsg : String := "Workflow must have an output node as the ending point"

def dCycleMsg : String := "Workflow contains a cycle/loop"

/-! ### The three validators -/

/-- The error list pushed by `validateWorkflow` in WorkflowBuilder.tsx:
cycle check, disconnected check, multiple-start check, in push order. -/
def validateB (nodes : List WNode) (edges : List WEdge) : List String :=
  (if detectCycleB nodes edges then [cycleMsg] else [])
  ++ (let d := disconnectedNodesB nodes edges
      if d.length > 0 then [discMsg d.length (d.map WNode.label)] else [])
  ++ (let s := startNodesB nodes edges
      if s.length > 1 then [startMsg s.length] else [])

/-- `setIsWorkflowValid(errors.length === 0)` in WorkflowBuilder.tsx. -/
def isValidB (nodes : List WNode) (edges : List WEdge) : Bool :=
  (validateB nodes edges).isEmpty

/-- The error list pushed by `validateWorkflow` in workflow/[id]/page.tsx:
same three checks as WorkflowBuilder.tsx, then a multiple-end check. -/
def pageValidate (nodes : List WNode) (edges : List WEdge) : List String :=
  (if detectCycleB nodes edges then [cycleMsg] else [])
  ++ (let d := disconnectedNodesB nodes edges
      if d.length > 0 then [discMsg d.length (d.map WNode.label)] else [])
  ++ (let s := startNodesB nodes edges
      if s.length > 1 then [startMsg s.length] else [])
  ++ (let e := endNodesP nodes edges
      if e.length > 1 then [endMsg e.length] else [])

def isValidPage (nodes : List WNode) (edges : List WEdge) : Bool :=
  (pageValidate nodes edges).isEmpty

/-- The error list returned by `validateWorkflow` in workflow-designer.tsx:
input-node presence, output-node presence, disconnected check (on `data.name`,
which the `label` field models), cycle check, in push order. -/
def designerValidate (nodes : List WNode) (edges : List WEdge) : List String :=
  (if nodes.any (fun n => n.typ == "input") then [] else [dInputMsg])
  ++ (if nodes.any (fun n => n.typ == "output") then [] else [dOutputMsg])
  ++ (let d := disconnectedNodesB nodes edges
      if d.length > 0 then [discMsg d.length (d.map WNode.label)] else [])
  ++ (if dDetectCycle edges then [dCycleMsg] else [])

/-! ### Run handlers -/

inductive RunOutcome where
  | rejected : String → RunOutcome
  | started : RunOutcome
deriving DecidableEq

def previewHeader : String := "Workflow validation errors:\n"

/-- `handleRunPreview` in workflow-designer.tsx: validates, and on a non-empty
error list alerts the joined list and returns without executing. -/
def handleRunPreview (nodes : List WNode) (edges : List WEdge) : RunOutcome :=
  let errors := designerValidate nodes edges
  if errors.length > 0 then
    RunOutcome.rejected (previewHeader ++ String.intercalate "\n" errors)
  else RunOutcome.started

def runRefusedMsg : String := "Cannot run workflow - validation errors found!"

/-- `handleRun` in workflow/[id]/page.tsx: checks the `isWorkflowValid` flag
and on failure shows a fixed toast message without starting the run. -/
def pageHandleRun (valid : Bool) : RunOutcome :=
  if !valid then RunOutcome.rejected runRefusedMsg else RunOutcome.started

/-! ### Graph-editing handlers -/

/-- `handleNodeDeleted` (WorkflowBuilder.tsx and page.tsx) and
`handleDeleteNode` (workflow-designer.tsx): keep the nodes with a different id
and the edges touching the deleted node at neither end. -/
def handleNodeDeleted (nodes : List WNode) (edges : List WEdge) (nodeId : String) :
    List WNode × List WEdge :=
  (nodes.filter (fun n => !(n.id == nodeId)),
   edges.filter (fun e => !(e.source == nodeId) && !(e.target == nodeId)))

/-- `handleConnectNodes` in the WorkflowCanvas component: reject a
self-connection, reject a duplicate (source, target) pair, otherwise emit the
new edge (the parent appends it to the edge list via `handleEdgeAdded`). -/
def handleConnectNodes (edges : List WEdge) (sourceId targetId : String) :
    List WEdge :=
  if sourceId == targetId then edges
  else if edges.any (fun e => e.source == sourceId && e.target == targetId) then edges
  else edges ++ [⟨"edge_" ++ sourceId ++ "_" ++ targetId, sourceId, targetId⟩]

/-- Well-formedness of a graph state: every edge endpoint is a node id. -/
def wfGraph (nodes : List WNode) (edges : List WEdge) : Prop :=
  ∀ e ∈ edges, e.source ∈ nodes.map WNode.id ∧ e.target ∈ nodes.map WNode.id

instance (nodes : List WNode) (edges : List WEdge) :
    Decidable (wfGraph nodes edges) := by
  unfold wfGraph; infer_instance

lemma isEmpty_false_of_mem {l : List String} {x : String} (h : x ∈ l) :
    l.isEmpty = false := by
  cases l with
  | nil => exact absurd h (List.not_mem_nil _)
  | cons a l => rfl

/-! ### Reachability and the DFS invariant -/

/-- `Reach g a b`: `b` is reachable from `a` along the adjacency map `g`
(reflexive-transitive closure of the edge relation). -/
def Reach (g : String → List String) : String → String → Prop :=
  Relation.ReflTransGen (fun a b => b ∈ g a)

/-- The white/gray/black invariant of both DFS implementations: a *finished*
node (visited and no longer on the recursion stack) has all its successors
finished, and no finished node lies on a cycle. -/
def BlackInv (g : String → List String) (v r : List String) : Prop :=
  ∀ x, x ∈ v → x ∉ r →
    (∀ y ∈ g x, y ∈ v ∧ y ∉ r) ∧ (∀ y ∈ g x, ¬ Reach g y x)

lemma blackInv_reach (g : String → List String) (v r : List String)
    (h : BlackInv g v r) {x z : String} (hx : x ∈ v) (hr : x ∉ r)
    (hz : Reach g x z) : z ∈ v ∧ z ∉ r := by
  induction hz with
  | refl => exact ⟨hx, hr⟩
  | tail _ hbc ih => exact (h _ ih.1 ih.2).1 _ hbc

lemma blackInv_nil_nil (g : String → List String) : BlackInv g [] [] := by
  intro x hx
  exact absurd hx (List.not_mem_nil x)

lemma blackInv_cons (g : String → List String) (v r : List String) (node : String)
    (hnv : node ∉ v) (h : BlackInv g v r) :
    BlackInv g (node :: v) (node :: r) := by
  intro x hx hxr
  have hxn : x ≠ node := fun he => hxr (he ▸ List.mem_cons_self node r)
  have hxv : x ∈ v := by
    rcases List.mem_cons.mp hx with h1 | h1
    · exact absurd h1 hxn
    · exact h1
  have hxr' : x ∉ r := fun hh => hxr (List.mem_cons_of_mem _ hh)
  obtain ⟨hc, hcf⟩ := h x hxv hxr'
  refine ⟨fun y hy => ?_, hcf⟩
  obtain ⟨hyv, hynr⟩ := hc y hy
  have hyn : y ≠ node := fun he => hnv (he ▸ hyv)
  refine ⟨List.mem_cons_of_mem _ hyv, fun hh => ?_⟩
  rcases List.mem_cons.mp hh with h1 | h1
  · exact hyn h1
  · exact hynr h1

/-- Contract of one recursive DFS call on an unvisited node, as used by the
shared neighbour loop: on a `false` answer the recursion stack is restored,
`visited` only grows, the node ends up visited, and the invariant holds. -/
def StepProp (g : String → List String)
    (step : String → List String → List String → Bool × List String × List String) :
    Prop :=
  ∀ node v r v' r', BlackInv g v r → (∀ x ∈ r, x ∈ v) → node ∉ v → node ∉ r →
    step node v r = (false, v', r') →
    r' = r ∧ (∀ x ∈ v, x ∈ v') ∧ node ∈ v' ∧ BlackInv g v' r

lemma dfsLoop_false (g : String → List String)
    (step : String → List String → List String → Bool × List String × List String)
    (hstep : StepProp g step) :
    ∀ (l v r v' r' : List String), BlackInv g v r → (∀ x ∈ r, x ∈ v) →
      dfsLoop step l v r = (false, v', r') →
      r' = r ∧ (∀ x ∈ v, x ∈ v') ∧ BlackInv g v' r ∧ ∀ n ∈ l, n ∈ v' ∧ n ∉ r := by
  intro l
  induction l with
  | nil =>
    intro v r v' r' hB hrv heq
    simp only [dfsLoop, Prod.mk.injEq, true_and] at heq
    obtain ⟨rfl, rfl⟩ := heq
    exact ⟨rfl, fun x hx => hx, hB, by simp⟩
  | cons n ns ih =>
    intro v r v' r' hB hrv heq
    simp only [dfsLoop] at heq
    by_cases hnv : n ∈ v
    · rw [if_pos hnv] at heq
      by_cases hnr : n ∈ r
      · rw [if_pos hnr] at heq
        simp at heq
      · rw [if_neg hnr] at heq
        obtain ⟨h1, h2, h3, h4⟩ := ih v r v' r' hB hrv heq
        refine ⟨h1, h2, h3, fun m hm => ?_⟩
        rcases List.mem_cons.mp hm with rfl | hm'
        · exact ⟨h2 _ hnv, hnr⟩
        · exact h4 m hm'
    · rw [if_neg hnv] at heq
      rcases h1 : step n v r with ⟨b, v₁, r₁⟩
      rw [h1] at heq
      cases b with
      | true =>
        replace heq : ((true, v₁, r₁) : Bool × List String × List String)
            = (false, v', r') := heq
        simp at heq
      | false =>
        replace heq : (if n ∈ r₁ then (true, v₁, r₁) else dfsLoop step ns v₁ r₁)
            = (false, v', r') := heq
        have hnr : n ∉ r := fun hh => hnv (hrv n hh)
        obtain ⟨hr₁, hvv₁, hnv₁, hB₁⟩ := hstep n v r v₁ r₁ hB hrv hnv hnr h1
        rw [hr₁] at heq
        rw [if_neg hnr] at heq
        obtain ⟨h2, h3, h4, h5⟩ := ih v₁ r v' r' hB₁ (fun x hx => hvv₁ x (hrv x hx)) heq
        refine ⟨h2, fun x hx => h3 x (hvv₁ x hx), h4, fun m hm => ?_⟩
        rcases List.mem_cons.mp hm with rfl | hm'
        · exact ⟨h3 _ hnv₁, hnr⟩
        · exact h5 m hm'

/-- The shared body of both DFS implementations, entered on an unvisited,
non-gray node: push the node, run the neighbour loop, pop the node.  On a
`false` answer the invariant extends to the now-finished node. -/
lemma dfsCore_false (g : String → List String)
    (step : String → List String → List String → Bool × List String × List String)
    (hstep : StepProp g step) (node : String) (v r v₂ r₂ : List String)
    (hB : BlackInv g v r) (hrv : ∀ x ∈ r, x ∈ v) (hnv : node ∉ v) (hnr : node ∉ r)
    (hloop : dfsLoop step (g node) (node :: v) (node :: r) = (false, v₂, r₂)) :
    r₂ = node :: r ∧ (∀ x ∈ v, x ∈ v₂) ∧ node ∈ v₂ ∧ BlackInv g v₂ r := by
  have hB' : BlackInv g (node :: v) (node :: r) := blackInv_cons g v r node hnv hB
  have hrv' : ∀ x ∈ node :: r, x ∈ node :: v := by
    intro x hx
    rcases List.mem_cons.mp hx with rfl | hx'
    · exact List.mem_cons_self _ _
    · exact List.mem_cons_of_mem _ (hrv x hx')
  obtain ⟨hr₂, hvv₂, hB₂, hmem⟩ :=
    dfsLoop_false g step hstep (g node) (node :: v) (node :: r) v₂ r₂ hB' hrv' hloop
  have hnodev₂ : node ∈ v₂ := hvv₂ node (List.mem_cons_self _ _)
  refine ⟨hr₂, fun x hx => hvv₂ x (List.mem_cons_of_mem _ hx), hnodev₂, ?_⟩
  intro x hx hxr
  by_cases hxn : x = node
  · subst hxn
    constructor
    · intro y hy
      obtain ⟨hyv, hynr⟩ := hmem y hy
      exact ⟨hyv, fun hh => hynr (List.mem_cons_of_mem _ hh)⟩
    · intro y hy hre
      obtain ⟨hyv, hynr⟩ := hmem y hy
      exact (blackInv_reach g v₂ (x :: r) hB₂ hyv hynr hre).2 (List.mem_cons_self _ _)
  · have hxnr : x ∉ node :: r := by
      intro hh
      rcases List.mem_cons.mp hh with h1 | h1
      · exact hxn h1
      · exact hxr h1
    obtain ⟨hc, hcf⟩ := hB₂ x hx hxnr
    refine ⟨fun y hy => ?_, hcf⟩
    obtain ⟨hyv, hynr⟩ := hc y hy
    exact ⟨hyv, fun hh => hynr (List.mem_cons_of_mem _ hh)⟩

/-- The contract `StepProp`, plus tolerance of already-visited nodes, holds
for every fuel level of the WorkflowBuilder/page DFS. -/
lemma dfsN_false (g : String → List String) :
    ∀ fuel node v r v' r', BlackInv g v r → (∀ x ∈ r, x ∈ v) → node ∉ r →
      dfsN g fuel node v r = (false, v', r') →
      r' = r ∧ (∀ x ∈ v, x ∈ v') ∧ node ∈ v' ∧ BlackInv g v' r := by
  intro fuel
  induction fuel with
  | zero =>
    intro node v r v' r' _ _ _ heq
    replace heq : ((true, v, r) : Bool × List String × List String) = (false, v', r') := heq
    simp at heq
  | succ f ih =>
    have hstep : StepProp g (dfsN g f) := by
      intro node v r v' r' hB hrv _ hnr heq
      exact ih node v r v' r' hB hrv hnr heq
    intro node v r v' r' hB hrv hnr heq
    by_cases hnv : node ∈ v
    · replace heq : (if node ∈ v then ((false, v, r.erase node) : Bool × List String × List String)
          else match dfsLoop (dfsN g f) (g node) (node :: v) (node :: r) with
            | (true, v', r') => (true, v', r')
            | (false, v', r') => (false, v', r'.erase node)) = (false, v', r') := heq
      rw [if_pos hnv] at heq
      rw [List.erase_of_not_mem hnr] at heq
      simp only [Prod.mk.injEq, true_and] at heq
      obtain ⟨rfl, rfl⟩ := heq
      exact ⟨rfl, fun x hx => hx, hnv, hB⟩
    · replace heq : (if node ∈ v then ((false, v, r.erase node) : Bool × List String × List String)
          else match dfsLoop (dfsN g f) (g node) (node :: v) (node :: r) with
            | (true, v', r') => (true, v', r')
            | (false, v', r') => (false, v', r'.erase node)) = (false, v', r') := heq
      rw [if_neg hnv] at heq
      rcases hloop : dfsLoop (dfsN g f) (g node) (node :: v) (node :: r) with ⟨b, v₂, r₂⟩
      rw [hloop] at heq
      cases b with
      | true =>
        replace heq : ((true, v₂, r₂) : Bool × List String × List String) = (false, v', r') := heq
        simp at heq
      | false =>
        replace heq : ((false, v₂, r₂.erase node) : Bool × List String × List String)
            = (false, v', r') := heq
        simp only [Prod.mk.injEq, true_and] at heq
        obtain ⟨rfl, rfl⟩ := heq
        obtain ⟨hr₂, hvv₂, hnodev₂, hB₂⟩ :=
          dfsCore_false g (dfsN g f) hstep node v r v₂ r₂ hB hrv hnv hnr hloop
        rw [hr₂, List.erase_cons_head]
        exact ⟨rfl, hvv₂, hnodev₂, hB₂⟩

/-- Same contract for the workflow-designer DFS (whose call sites always pass
an unvisited node). -/
lemma dDfsN_false (g : String → List String) :
    ∀ fuel node v r v' r', BlackInv g v r → (∀ x ∈ r, x ∈ v) → node ∉ v → node ∉ r →
      dDfsN g fuel node v r = (false, v', r') →
      r' = r ∧ (∀ x ∈ v, x ∈ v') ∧ node ∈ v' ∧ BlackInv g v' r := by
  intro fuel
  induction fuel with
  | zero =>
    intro node v r v' r' _ _ _ _ heq
    replace heq : ((true, v, r) : Bool × List String × List String) = (false, v', r') := heq
    simp at heq
  | succ f ih =>
    have hstep : StepProp g (dDfsN g f) := by
      intro node v r v' r' hB hrv hnv hnr heq
      exact ih node v r v' r' hB hrv hnv hnr heq
    intro node v r v' r' hB hrv hnv hnr heq
    replace heq : (if node ∈ r then ((false, v, r.erase node) : Bool × List String × List String)
        else match dfsLoop (dDfsN g f) (g node) (insertS v node) (insertS r node) with
          | (true, v', r') => (true, v', r')
          | (false, v', r') => (false, v', r'.erase node)) = (false, v', r') := heq
    rw [if_neg hnr] at heq
    rw [show insertS v node = node :: v from if_neg hnv,
        show insertS r node = node :: r from if_neg hnr] at heq
    rcases hloop : dfsLoop (dDfsN g f) (g node) (node :: v) (node :: r) with ⟨b, v₂, r₂⟩
    rw [hloop] at heq
    cases b with
    | true =>
      replace heq : ((true, v₂, r₂) : Bool × List String × List String) = (false, v', r') := heq
      simp at heq
    | false =>
      replace heq : ((false, v₂, r₂.erase node) : Bool × List String × List String)
          = (false, v', r') := heq
      simp only [Prod.mk.injEq, true_and] at heq
      obtain ⟨rfl, rfl⟩ := heq
      obtain ⟨hr₂, hvv₂, hnodev₂, hB₂⟩ :=
        dfsCore_false g (dDfsN g f) hstep node v r v₂ r₂ hB hrv hnv hnr hloop
      rw [hr₂, List.erase_cons_head]
      exact ⟨rfl, hvv₂, hnodev₂, hB₂⟩

/-- If the outer loop of the WorkflowBuilder/page `detectCycle` answers
`false`, the final visited set is successor-closed, cycle-free, and covers
every listed node. -/
lemma detectOuter_false (g : String → List String) (fuel : Nat) :
    ∀ (ns : List WNode) (v : List String), BlackInv g v [] →
      detectOuter g fuel ns v [] = false →
      ∃ vf, (∀ x ∈ v, x ∈ vf) ∧ BlackInv g vf [] ∧ ∀ n ∈ ns, n.id ∈ vf := by
  intro ns
  induction ns with
  | nil =>
    intro v hB _
    exact ⟨v, fun x hx => hx, hB, by simp⟩
  | cons n ns ih =>
    intro v hB heq
    simp only [detectOuter] at heq
    rcases h1 : dfsN g fuel n.id v [] with ⟨b, v₁, r₁⟩
    rw [h1] at heq
    cases b with
    | true =>
      replace heq : true = false := heq
      simp at heq
    | false =>
      replace heq : detectOuter g fuel ns v₁ r₁ = false := heq
      obtain ⟨hr₁, hvv₁, hnv₁, hB₁⟩ :=
        dfsN_false g fuel n.id v [] v₁ r₁ hB (by simp) (by simp) h1
      rw [hr₁] at heq
      obtain ⟨vf, hsub, hBf, hall⟩ := ih v₁ hB₁ heq
      refine ⟨vf, fun x hx => hsub x (hvv₁ x hx), hBf, fun m hm => ?_⟩
      rcases List.mem_cons.mp hm with rfl | hm'
      · exact hsub _ hnv₁
      · exact hall m hm'

/-- Same statement for the outer loop of the designer's `detectCycle`. -/
lemma dDetectOuter_false (g : String → List String) (fuel : Nat) :
    ∀ (ks : List String) (v : List String), BlackInv g v [] →
      dDetectOuter g fuel ks v [] = false →
      ∃ vf, (∀ x ∈ v, x ∈ vf) ∧ BlackInv g vf [] ∧ ∀ k ∈ ks, k ∈ vf := by
  intro ks
  induction ks with
  | nil =>
    intro v hB _
    exact ⟨v, fun x hx => hx, hB, by simp⟩
  | cons k ks ih =>
    intro v hB heq
    simp only [dDetectOuter] at heq
    by_cases hkv : k ∈ v
    · rw [if_pos hkv] at heq
      obtain ⟨vf, hsub, hBf, hall⟩ := ih v hB heq
      refine ⟨vf, hsub, hBf, fun m hm => ?_⟩
      rcases List.mem_cons.mp hm with rfl | hm'
      · exact hsub _ hkv
      · exact hall m hm'
    · rw [if_neg hkv] at heq
      rcases h1 : dDfsN g fuel k v [] with ⟨b, v₁, r₁⟩
      rw [h1] at heq
      cases b with
      | true =>
        replace heq : true = false := heq
        simp at heq
      | false =>
        replace heq : dDetectOuter g fuel ks v₁ r₁ = false := heq
        obtain ⟨hr₁, hvv₁, hkv₁, hB₁⟩ :=
          dDfsN_false g fuel k v [] v₁ r₁ hB (by simp) hkv (by simp) h1
        rw [hr₁] at heq
        obtain ⟨vf, hsub, hBf, hall⟩ := ih v₁ hB₁ heq
        refine ⟨vf, fun x hx => hsub x (hvv₁ x hx), hBf, fun m hm => ?_⟩
        rcases List.mem_cons.mp hm with rfl | hm'
        · exact hsub _ hkv₁
        · exact hall m hm'

/-- Completeness of the WorkflowBuilder/page cycle detector: it answers `true`
on every graph containing a directed cycle reachable from a listed node. -/
lemma detectCycleB_of_cycle (nodes : List WNode) (edges : List WEdge)
    (e c d : String) (he : e ∈ nodes.map WNode.id)
    (h1 : Reach (adj edges) e c) (h2 : d ∈ adj edges c)
    (h3 : Reach (adj edges) d c) :
    detectCycleB nodes edges = true := by
  by_contra hfalse
  have hf : detectCycleB nodes edges = false := by
    revert hfalse
    cases detectCycleB nodes edges <;> simp
  unfold detectCycleB at hf
  obtain ⟨vf, _, hBf, hall⟩ :=
    detectOuter_false (adj edges) (nodes.length + edges.length + 1) nodes []
      (blackInv_nil_nil _) hf
  obtain ⟨n, hn, rfl⟩ := List.mem_map.mp he
  have hev : n.id ∈ vf := hall n hn
  have hc := blackInv_reach (adj edges) vf [] hBf hev (List.not_mem_nil _) h1
  exact (hBf c hc.1 (List.not_mem_nil c)).2 d h2 h3

lemma mem_adjKeys (edges : List WEdge) (x : String) :
    x ∈ adjKeys edges ↔ ∃ e ∈ edges, e.source = x := by
  have haux : ∀ (es : List WEdge) (acc : List String),
      x ∈ es.foldl (fun acc e => if e.source ∈ acc then acc else acc ++ [e.source]) acc ↔
      x ∈ acc ∨ ∃ e ∈ es, e.source = x := by
    intro es
    induction es with
    | nil => simp
    | cons e es ih =>
      intro acc
      simp only [List.foldl_cons]
      by_cases h : e.source ∈ acc
      · rw [if_pos h, ih]
        constructor
        · rintro (h1 | ⟨e', he', hx⟩)
          · exact Or.inl h1
          · exact Or.inr ⟨e', List.mem_cons_of_mem _ he', hx⟩
        · rintro (h1 | ⟨e', he', hx⟩)
          · exact Or.inl h1
          · rcases List.mem_cons.mp he' with rfl | he''
            · exact Or.inl (hx ▸ h)
            · exact Or.inr ⟨e', he'', hx⟩
      · rw [if_neg h, ih]
        constructor
        · rintro (h1 | ⟨e', he', hx⟩)
          · rcases List.mem_append.mp h1 with h2 | h2
            · exact Or.inl h2
            · exact Or.inr ⟨e, List.mem_cons_self _ _, (List.mem_singleton.mp h2).symm⟩
          · exact Or.inr ⟨e', List.mem_cons_of_mem _ he', hx⟩
        · rintro (h1 | ⟨e', he', hx⟩)
          · exact Or.inl (List.mem_append.mpr (Or.inl h1))
          · rcases List.mem_cons.mp he' with rfl | he''
            · exact Or.inl (List.mem_append.mpr (Or.inr (by simp [hx])))
            · exact Or.inr ⟨e', he'', hx⟩
  rw [adjKeys, haux]
  simp

/-- Completeness of the designer's cycle detector: any node with an outgoing
edge is a key of the adjacency object, so any directed cycle is found. -/
lemma dDetectCycle_of_cycle (edges : List WEdge) (c d : String)
    (h2 : d ∈ adj edges c) (h3 : Reach (adj edges) d c) :
    dDetectCycle edges = true := by
  by_contra hfalse
  have hf : dDetectCycle edges = false := by
    revert hfalse
    cases dDetectCycle edges <;> simp
  unfold dDetectCycle at hf
  obtain ⟨vf, _, hBf, hall⟩ :=
    dDetectOuter_false (adj edges) (2 * edges.length + 1) (adjKeys edges) []
      (blackInv_nil_nil _) hf
  have hck : c ∈ adjKeys edges := by
    rw [mem_adjKeys]
    unfold adj at h2
    obtain ⟨e, he, _⟩ := List.mem_map.mp h2
    exact ⟨e, (List.mem_filter.mp he).1, by
      have := (List.mem_filter.mp he).2
      simpa using this⟩
  have hcv : c ∈ vf := hall c hck
  exact (hBf c hcv (List.not_mem_nil c)).2 d h2 h3

/-- C1: for every workflow graph that contains a directed cycle (`c → d →* c`)
reachable from the entry node `e` (a listed node of in-degree 0), validation
returns an invalid verdict whose error list contains the cycle error, and
`detectCycle` returns `true` — in WorkflowBuilder.tsx (`detectCycleB`,
`validateB`), in page.tsx (`pageValidate`) and in workflow-designer.tsx
(`dDetectCycle`, `designerValidate`) alike. -/
theorem cycle_reachable_from_entry_invalid
    (nodes : List WNode) (edges : List WEdge) (e c d : String)
    (he : e ∈ nodes.map WNode.id)
    (_hentry : ∀ ed ∈ edges, ed.target ≠ e)
    (h1 : Reach (adj edges) e c)
    (h2 : d ∈ adj edges c)
    (h3 : Reach (adj edges) d c) :
    detectCycleB nodes edges = true ∧
    cycleMsg ∈ validateB nodes edges ∧
    isValidB nodes edges = false ∧
    cycleMsg ∈ pageValidate nodes edges ∧
    isValidPage nodes edges = false ∧
    dDetectCycle edges = true ∧
    dCycleMsg ∈ designerValidate nodes edges := by
  have hdet : detectCycleB nodes edges = true :=
    detectCycleB_of_cycle nodes edges e c d he h1 h2 h3
  have hddet : dDetectCycle edges = true := dDetectCycle_of_cycle edges c d h2 h3
  have hmem : cycleMsg ∈ validateB nodes edges := by
    unfold validateB
    rw [hdet, if_pos rfl]
    simp
  have hmemp : cycleMsg ∈ pageValidate nodes edges := by
    unfold pageValidate
    rw [hdet, if_pos rfl]
    simp
  refine ⟨hdet, hmem, isEmpty_false_of_mem hmem, hmemp,
    isEmpty_false_of_mem hmemp, hddet, ?_⟩
  unfold designerValidate
  rw [hddet, if_pos rfl]
  exact List.mem_append.mpr (Or.inr (List.mem_singleton.mpr rfl))

def wNodeE : WNode := ⟨"E", "Entry", "input"⟩

def wNodeA : WNode := ⟨"A", "A", "agent"⟩

def wNodeB : WNode := ⟨"B", "B", "agent"⟩

def wEdgesEAB : List WEdge :=
  [⟨"e1", "E", "A"⟩, ⟨"e2", "A", "B"⟩, ⟨"e3", "B", "A"⟩]

/-- Witness for C1: the graph `E → A → B → A` has entry `E` and the cycle
`A → B → A` reachable from it; both detectors flag it and both validators
report the cycle error. -/
theorem cycle_reachable_from_entry_invalid_witness :
    detectCycleB [wNodeE, wNodeA, wNodeB] wEdgesEAB = true ∧
    cycleMsg ∈ validateB [wNodeE, wNodeA, wNodeB] wEdgesEAB ∧
    isValidB [wNodeE, wNodeA, wNodeB] wEdgesEAB = false ∧
    cycleMsg ∈ pageValidate [wNodeE, wNodeA, wNodeB] wEdgesEAB ∧
    isValidPage [wNodeE, wNodeA, wNodeB] wEdgesEAB = false ∧
    dDetectCycle wEdgesEAB = true ∧
    dCycleMsg ∈ designerValidate [wNodeE, wNodeA, wNodeB] wEdgesEAB :=
  cycle_reachable_from_entry_invalid [wNodeE, wNodeA, wNodeB] wEdgesEAB "E" "A" "B"
    (by decide) (by decide)
    (Relation.ReflTransGen.single (by decide))
    (by decide)
    (Relation.ReflTransGen.single (by decide))

/-! ### Decimal rendering of counts

`toString (k : Nat)` (the model of JS template-literal number rendering)
produces only digit characters; this separates the three `Found <count> ...`
error messages from one another. -/

lemma digitChar_isDigit (m : Nat) (h : m < 10) : (Nat.digitChar m).isDigit = true := by
  interval_cases m <;> decide

lemma toDigitsCore_digits :
    ∀ (fuel n : Nat) (ds : List Char), (∀ c ∈ ds, c.isDigit = true) →
      ∀ c ∈ Nat.toDigitsCore 10 fuel n ds, c.isDigit = true := by
  intro fuel
  induction fuel with
  | zero =>
    intro n ds hds c hc
    exact hds c (by simpa [Nat.toDigitsCore] using hc)
  | succ f ih =>
    intro n ds hds c hc
    simp only [Nat.toDigitsCore] at hc
    have hd : ((n % 10).digitChar).isDigit = true :=
      digitChar_isDigit _ (Nat.mod_lt _ (by decide))
    by_cases h : n / 10 = 0
    · rw [if_pos h] at hc
      rcases List.mem_cons.mp hc with rfl | hc'
      · exact hd
      · exact hds c hc'
    · rw [if_neg h] at hc
      refine ih (n / 10) ((n % 10).digitChar :: ds) ?_ c hc
      intro c' hc'
      rcases List.mem_cons.mp hc' with rfl | hc''
      · exact hd
      · exact hds c' hc''

lemma natRepr_digits (k : Nat) : ∀ c ∈ (toString k).data, c.isDigit = true := by
  have h : (toString k).data = Nat.toDigitsCore 10 (k + 1) k [] := rfl
  rw [h]
  exact toDigitsCore_digits (k + 1) k [] (by simp)

/-- Splitting a list at the first non-digit character is unambiguous. -/
lemma digits_split :
    ∀ (da db xs ys : List Char) (c₁ c₂ : Char),
      (∀ ch ∈ da, ch.isDigit = true) → (∀ ch ∈ db, ch.isDigit = true) →
      c₁.isDigit = false → c₂.isDigit = false →
      da ++ c₁ :: xs = db ++ c₂ :: ys → da = db ∧ c₁ = c₂ ∧ xs = ys := by
  intro da
  induction da with
  | nil =>
    intro db xs ys c₁ c₂ _ hdb hc₁ hc₂ heq
    cases db with
    | nil =>
      simp only [List.nil_append, List.cons.injEq] at heq
      exact ⟨rfl, heq.1, heq.2⟩
    | cons b bs =>
      simp only [List.nil_append, List.cons_append, List.cons.injEq] at heq
      have hb : b.isDigit = true := hdb b (by simp)
      rw [heq.1, hb] at hc₁
      exact absurd hc₁ (by simp)
  | cons a as ih =>
    intro db xs ys c₁ c₂ hda hdb hc₁ hc₂ heq
    cases db with
    | nil =>
      simp only [List.cons_append, List.nil_append, List.cons.injEq] at heq
      have ha : a.isDigit = true := hda a (by simp)
      rw [← heq.1, ha] at hc₂
      exact absurd hc₂ (by simp)
    | cons b bs =>
      simp only [List.cons_append, List.cons.injEq] at heq
      obtain ⟨hab, heq2⟩ := heq
      obtain ⟨h1, h2, h3⟩ := ih bs xs ys c₁ c₂
        (fun ch hch => hda ch (List.mem_cons_of_mem _ hch))
        (fun ch hch => hdb ch (List.mem_cons_of_mem _ hch)) hc₁ hc₂ heq2
      exact ⟨by rw [hab, h1], h2, h3⟩

/-- Two strings of the shape `"Found " ++ <decimal count> ++ <non-digit tail>`
agree on their tails if they are equal. -/
lemma found_tail_eq (k k' : Nat) (x y : List Char) (c c' : Char)
    (hc : c.isDigit = false) (hc' : c'.isDigit = false)
    (h : "Found ".data ++ ((toString k).data ++ (c :: x))
       = "Found ".data ++ ((toString k').data ++ (c' :: y))) :
    c = c' ∧ x = y := by
  have h2 := List.append_cancel_left h
  obtain ⟨_, h3, h4⟩ := digits_split (toString k).data (toString k').data x y c c'
    (natRepr_digits k) (natRepr_digits k') hc hc' h2
  exact ⟨h3, h4⟩

/-! ### The error-message families are pairwise distinct -/

lemma startMsg_ne_cycleMsg (k : Nat) : startMsg k ≠ cycleMsg := by
  intro h
  have h2 : "Found ".data <+: cycleMsg.data := by
    rw [← h]
    simp only [startMsg, String.data_append, List.append_assoc]
    exact List.prefix_append _ _
  exact absurd h2 (by decide)

lemma endMsg_ne_cycleMsg (k : Nat) : endMsg k ≠ cycleMsg := by
  intro h
  have h2 : "Found ".data <+: cycleMsg.data := by
    rw [← h]
    simp only [endMsg, String.data_append, List.append_assoc]
    exact List.prefix_append _ _
  exact absurd h2 (by decide)

lemma startMsg_ne_discMsg (k k' : Nat) (labels : List String) :
    startMsg k ≠ discMsg k' labels := by
  intro h
  have h2 := congrArg String.data h
  simp only [startMsg, discMsg, String.data_append, List.append_assoc,
    List.cons_append, List.nil_append] at h2
  obtain ⟨-, h3⟩ := found_tail_eq k k' _ _ ' ' ' ' (by decide) (by decide) h2
  injection h3 with h4 _
  exact absurd h4 (by decide)

lemma endMsg_ne_discMsg (k k' : Nat) (labels : List String) :
    endMsg k ≠ discMsg k' labels := by
  intro h
  have h2 := congrArg String.data h
  simp only [endMsg, discMsg, String.data_append, List.append_assoc,
    List.cons_append, List.nil_append] at h2
  obtain ⟨-, h3⟩ := found_tail_eq k k' _ _ ' ' ' ' (by decide) (by decide) h2
  injection h3 with h4 _
  exact absurd h4 (by decide)

lemma endMsg_ne_startMsg (k k' : Nat) : endMsg k ≠ startMsg k' := by
  intro h
  have h2 := congrArg String.data h
  simp only [endMsg, startMsg, String.data_append, List.append_assoc,
    List.cons_append, List.nil_append] at h2
  obtain ⟨-, h3⟩ := found_tail_eq k k' _ _ ' ' ' ' (by decide) (by decide) h2
  exact absurd h3 (by decide)

/-! ### C2/C4: which counts produce which errors -/

lemma validateB_eq (nodes : List WNode) (edges : List WEdge) :
    validateB nodes edges =
      (if detectCycleB nodes edges then [cycleMsg] else [])
      ++ (if (disconnectedNodesB nodes edges).length > 0
          then [discMsg (disconnectedNodesB nodes edges).length
                  ((disconnectedNodesB nodes edges).map WNode.label)] else [])
      ++ (if (startNodesB nodes edges).length > 1
          then [startMsg (startNodesB nodes edges).length] else []) := rfl

lemma pageValidate_eq (nodes : List WNode) (edges : List WEdge) :
    pageValidate nodes edges =
      (if detectCycleB nodes edges then [cycleMsg] else [])
      ++ (if (disconnectedNodesB nodes edges).length > 0
          then [discMsg (disconnectedNodesB nodes edges).length
                  ((disconnectedNodesB nodes edges).map WNode.label)] else [])
      ++ (if (startNodesB nodes edges).length > 1
          then [startMsg (startNodesB nodes edges).length] else [])
      ++ (if (endNodesP nodes edges).length > 1
          then [endMsg (endNodesP nodes edges).length] else []) := rfl

lemma mem_if_singleton {c : Prop} [Decidable c] {x a : String}
    (h : x ∈ (if c then [a] else [])) : c ∧ x = a := by
  by_cases hc : c
  · rw [if_pos hc] at h
    exact ⟨hc, List.mem_singleton.mp h⟩
  · rw [if_neg hc] at h
    exact absurd h (List.not_mem_nil _)

lemma startMsg_mem_B_iff (nodes : List WNode) (edges : List WEdge) :
    (∃ k, startMsg k ∈ validateB nodes edges) ↔
      (startNodesB nodes edges).length > 1 := by
  constructor
  · rintro ⟨k, hk⟩
    rw [validateB_eq] at hk
    rcases List.mem_append.mp hk with hk1 | hk2
    · rcases List.mem_append.mp hk1 with hk3 | hk4
      · exact absurd (mem_if_singleton hk3).2 (startMsg_ne_cycleMsg k)
      · exact absurd (mem_if_singleton hk4).2 (startMsg_ne_discMsg k _ _)
    · exact (mem_if_singleton hk2).1
  · intro hgt
    refine ⟨(startNodesB nodes edges).length, ?_⟩
    rw [validateB_eq]
    refine List.mem_append.mpr (Or.inr ?_)
    rw [if_pos hgt]
    simp

lemma startMsg_mem_page_iff (nodes : List WNode) (edges : List WEdge) :
    (∃ k, startMsg k ∈ pageValidate nodes edges) ↔
      (startNodesB nodes edges).length > 1 := by
  constructor
  · rintro ⟨k, hk⟩
    rw [pageValidate_eq] at hk
    rcases List.mem_append.mp hk with hk1 | hk2
    · rcases List.mem_append.mp hk1 with hk3 | hk4
      · rcases List.mem_append.mp hk3 with hk5 | hk6
        · exact absurd (mem_if_singleton hk5).2 (startMsg_ne_cycleMsg k)
        · exact absurd (mem_if_singleton hk6).2 (startMsg_ne_discMsg k _ _)
      · exact (mem_if_singleton hk4).1
    · exact absurd (mem_if_singleton hk2).2.symm (endMsg_ne_startMsg _ k)
  · intro hgt
    refine ⟨(startNodesB nodes edges).length, ?_⟩
    rw [pageValidate_eq]
    refine List.mem_append.mpr (Or.inl (List.mem_append.mpr (Or.inr ?_)))
    rw [if_pos hgt]
    simp

lemma endMsg_mem_page_iff (nodes : List WNode) (edges : List WEdge) :
    (∃ k, endMsg k ∈ pageValidate nodes edges) ↔
      (endNodesP nodes edges).length > 1 := by
  constructor
  · rintro ⟨k, hk⟩
    rw [pageValidate_eq] at hk
    rcases List.mem_append.mp hk with hk1 | hk2
    · rcases List.mem_append.mp hk1 with hk3 | hk4
      · rcases List.mem_append.mp hk3 with hk5 | hk6
        · exact absurd (mem_if_singleton hk5).2 (endMsg_ne_cycleMsg k)
        · exact absurd (mem_if_singleton hk6).2 (endMsg_ne_discMsg k _ _)
      · exact absurd (mem_if_singleton hk4).2 (endMsg_ne_startMsg k _)
    · exact (mem_if_singleton hk2).1
  · intro hgt
    refine ⟨(endNodesP nodes edges).length, ?_⟩
    rw [pageValidate_eq]
    refine List.mem_append.mpr (Or.inr ?_)
    rw [if_pos hgt]
    simp

def twoCycleNodes : List WNode := [⟨"A", "A", "agent"⟩, ⟨"B", "B", "agent"⟩]

def twoCycleEdges : List WEdge := [⟨"e1", "A", "B"⟩, ⟨"e2", "B", "A"⟩]

def twoStartNodes : List WNode :=
  [⟨"A", "A", "agent"⟩, ⟨"B", "B", "agent"⟩, ⟨"C", "C", "agent"⟩]

def twoStartEdges : List WEdge := [⟨"e1", "A", "C"⟩, ⟨"e2", "B", "C"⟩]

/-- C2 (amended): WorkflowBuilder's and page.tsx's validators report an
entry-point error exactly when the number of in-degree-0 start nodes exceeds
one, with the count embedded in the message; a count of zero or one produces
no entry-point error (the implementations check only `startNodes.length > 1`,
and the designer's validator has no entry-count check at all). -/
theorem entry_count_error_iff (nodes : List WNode) (edges : List WEdge) :
    ((∃ k, startMsg k ∈ validateB nodes edges) ↔
      (startNodesB nodes edges).length > 1) ∧
    ((∃ k, startMsg k ∈ pageValidate nodes edges) ↔
      (startNodesB nodes edges).length > 1) ∧
    ((startNodesB nodes edges).length > 1 →
      startMsg (startNodesB nodes edges).length ∈ validateB nodes edges ∧
      isValidB nodes edges = false) := by
  refine ⟨startMsg_mem_B_iff nodes edges, startMsg_mem_page_iff nodes edges,
    fun hgt => ?_⟩
  have hmem : startMsg (startNodesB nodes edges).length ∈ validateB nodes edges := by
    rw [validateB_eq]
    refine List.mem_append.mpr (Or.inr ?_)
    rw [if_pos hgt]
    simp
  exact ⟨hmem, isEmpty_false_of_mem hmem⟩

/-- Witness for C2 (amended): a graph with two start nodes gets the
entry-point error and an invalid verdict. -/
theorem entry_count_error_iff_witness :
    startMsg (startNodesB twoStartNodes twoStartEdges).length
        ∈ validateB twoStartNodes twoStartEdges ∧
    isValidB twoStartNodes twoStartEdges = false :=
  (entry_count_error_iff twoStartNodes twoStartEdges).2.2 (by decide)

/-- C2 counterexample: the two-node cycle A⇄B has zero entry nodes, yet the
validator's error list contains no entry-point message — refuting the claim
that a zero entry count is reported. -/
theorem entry_zero_count_unreported :
    (startNodesB twoCycleNodes twoCycleEdges).length = 0 ∧
    ¬ ∃ k, startMsg k ∈ validateB twoCycleNodes twoCycleEdges := by
  refine ⟨by decide, fun hex => ?_⟩
  have h := (startMsg_mem_B_iff twoCycleNodes twoCycleEdges).mp hex
  rw [show (startNodesB twoCycleNodes twoCycleEdges).length = 0 from by decide] at h
  exact absurd h (by decide)

/-- C4 (amended): page.tsx's validator computes the out-degree-0 end nodes and
reports an end-node error exactly when their count exceeds one; a count of
zero produces no error (WorkflowBuilder has no end check; the designer checks
for the presence of an `output`-typed node instead). -/
theorem end_count_error_iff (nodes : List WNode) (edges : List WEdge) :
    ((∃ k, endMsg k ∈ pageValidate nodes edges) ↔
      (endNodesP nodes edges).length > 1) ∧
    ((endNodesP nodes edges).length > 1 →
      endMsg (endNodesP nodes edges).length ∈ pageValidate nodes edges ∧
      isValidPage nodes edges = false) := by
  refine ⟨endMsg_mem_page_iff nodes edges, fun hgt => ?_⟩
  have hmem : endMsg (endNodesP nodes edges).length ∈ pageValidate nodes edges := by
    rw [pageValidate_eq]
    refine List.mem_append.mpr (Or.inr ?_)
    rw [if_pos hgt]
    simp
  exact ⟨hmem, isEmpty_false_of_mem hmem⟩

def twoEndNodes : List WNode :=
  [⟨"A", "A", "agent"⟩, ⟨"B", "B", "agent"⟩, ⟨"C", "C", "agent"⟩]

def twoEndEdges : List WEdge := [⟨"e1", "A", "B"⟩, ⟨"e2", "A", "C"⟩]

/-- Witness for C4 (amended): a graph with two end nodes gets the end-node
error and an invalid verdict from page.tsx's validator. -/
theorem end_count_error_iff_witness :
    endMsg (endNodesP twoEndNodes twoEndEdges).length
        ∈ pageValidate twoEndNodes twoEndEdges ∧
    isValidPage twoEndNodes twoEndEdges = false :=
  (end_count_error_iff twoEndNodes twoEndEdges).2 (by decide)

/-- C4 counterexample: A⇄B has zero out-degree-0 nodes, yet page.tsx's
validator reports only the cycle error; no reported message even mentions a
terminal node, refuting the claimed "workflow must have a terminal node"
error for count 0. -/
theorem end_zero_count_unreported :
    (endNodesP twoCycleNodes twoCycleEdges).length = 0 ∧
    pageValidate twoCycleNodes twoCycleEdges = [cycleMsg] ∧
    ((pageValidate twoCycleNodes twoCycleEdges).all
      (fun s => !(decide ("terminal".data <:+: s.data)))) = true := by
  refine ⟨by decide, by decide, by decide⟩

/-! ### C3: what "disconnected" means -/

lemma mem_insertS (l : List String) (x y : String) :
    y ∈ insertS l x ↔ y ∈ l ∨ y = x := by
  unfold insertS
  by_cases h : x ∈ l
  · rw [if_pos h]
    constructor
    · exact Or.inl
    · rintro (h1 | rfl)
      · exact h1
      · exact h
  · rw [if_neg h]
    simp [List.mem_cons, or_comm]

lemma mem_connectedNodes (edges : List WEdge) (x : String) :
    x ∈ connectedNodes edges ↔ ∃ e ∈ edges, e.source = x ∨ e.target = x := by
  have haux : ∀ (es : List WEdge) (acc : List String),
      x ∈ es.foldl (fun s e => insertS (insertS s e.source) e.target) acc ↔
      x ∈ acc ∨ ∃ e ∈ es, e.source = x ∨ e.target = x := by
    intro es
    induction es with
    | nil => simp
    | cons e es ih =>
      intro acc
      simp only [List.foldl_cons]
      rw [ih, mem_insertS, mem_insertS]
      constructor
      · rintro (((h1 | h1) | h1) | ⟨e', he', h⟩)
        · exact Or.inl h1
        · exact Or.inr ⟨e, List.mem_cons_self _ _, Or.inl h1.symm⟩
        · exact Or.inr ⟨e, List.mem_cons_self _ _, Or.inr h1.symm⟩
        · exact Or.inr ⟨e', List.mem_cons_of_mem _ he', h⟩
      · rintro (h1 | ⟨e', he', h⟩)
        · exact Or.inl (Or.inl (Or.inl h1))
        · rcases List.mem_cons.mp he' with rfl | he''
          · rcases h with h | h
            · exact Or.inl (Or.inl (Or.inr h.symm))
            · exact Or.inl (Or.inr h.symm)
          · exact Or.inr ⟨e', he'', h⟩
  rw [connectedNodes, haux]
  simp

/-- C3 (amended): the validators report a node as "disconnected" exactly when
it is incident to no edge (its id occurs as neither a source nor a target),
not when it is unreachable from the entry; the isolated nodes are reported by
label inside a single message. -/
theorem disconnected_iff_isolated (nodes : List WNode) (edges : List WEdge) :
    (∀ n, n ∈ disconnectedNodesB nodes edges ↔
      (n ∈ nodes ∧ ∀ e ∈ edges, e.source ≠ n.id ∧ e.target ≠ n.id)) ∧
    ((disconnectedNodesB nodes edges).length > 0 →
      discMsg (disconnectedNodesB nodes edges).length
        ((disconnectedNodesB nodes edges).map WNode.label)
        ∈ validateB nodes edges) := by
  constructor
  · intro n
    unfold disconnectedNodesB
    rw [List.mem_filter]
    constructor
    · rintro ⟨hn, hf⟩
      have hnotin : n.id ∉ connectedNodes edges := by simpa using hf
      refine ⟨hn, fun e he => ⟨fun hc => ?_, fun hc => ?_⟩⟩
      · exact hnotin ((mem_connectedNodes edges n.id).mpr ⟨e, he, Or.inl hc⟩)
      · exact hnotin ((mem_connectedNodes edges n.id).mpr ⟨e, he, Or.inr hc⟩)
    · rintro ⟨hn, hall⟩
      refine ⟨hn, ?_⟩
      simp only [decide_eq_true_eq]
      intro hmem
      obtain ⟨e, he, h⟩ := (mem_connectedNodes edges n.id).mp hmem
      rcases h with h | h
      · exact (hall e he).1 h
      · exact (hall e he).2 h
  · intro hgt
    rw [validateB_eq]
    refine List.mem_append.mpr (Or.inl (List.mem_append.mpr (Or.inr ?_)))
    rw [if_pos hgt]
    simp

def isoNodes : List WNode :=
  [⟨"A", "A", "agent"⟩, ⟨"B", "B", "agent"⟩, ⟨"I", "Isolated", "agent"⟩]

def isoEdges : List WEdge := [⟨"e1", "A", "B"⟩]

/-- Witness for C3 (amended): the edge-free node `I` is reported, and the
disconnected message lands in the error list. -/
theorem disconnected_iff_isolated_witness :
    (⟨"I", "Isolated", "agent"⟩ : WNode) ∈ disconnectedNodesB isoNodes isoEdges ∧
    discMsg (disconnectedNodesB isoNodes isoEdges).length
      ((disconnectedNodesB isoNodes isoEdges).map WNode.label)
      ∈ validateB isoNodes isoEdges :=
  ⟨((disconnected_iff_isolated isoNodes isoEdges).1 _).mpr ⟨by decide, by decide⟩,
   (disconnected_iff_isolated isoNodes isoEdges).2 (by decide)⟩

/-- Follows the spec's words for §4.2 step 4 ("BFS/DFS forward from entry
collects reachable set; any node outside it is disconnected"): one BFS wave
adds the targets of edges leaving the current set.  Used only to compare the
implementation's notion of "disconnected" with the spec's. -/
def specReachStep (edges : List WEdge) (s : List String) : List String :=
  s ++ (((edges.filter (fun e => decide (e.source ∈ s))).map
          (fun e => e.target)).filter (fun t => decide (t ∉ s)))

def specReachable (nodes : List WNode) (edges : List WEdge) (entry : String) :
    List String :=
  (specReachStep edges)^[nodes.length] [entry]

def unreachNodes : List WNode :=
  [⟨"A", "A", "agent"⟩, ⟨"B", "B", "agent"⟩, ⟨"C", "C", "agent"⟩,
   ⟨"D", "D", "agent"⟩]

def unreachEdges : List WEdge :=
  [⟨"e1", "A", "B"⟩, ⟨"e2", "C", "D"⟩, ⟨"e3", "D", "C"⟩]

/-- C3 counterexample: with edges A→B, C→D, D→C the unique entry is A and node
C is outside the forward-reachable set, yet the validator reports no node as
disconnected (C and D are incident to edges) — refuting the reachability
reading of "disconnected". -/
theorem disconnected_not_reachability :
    (startNodesB unreachNodes unreachEdges).map WNode.id = ["A"] ∧
    ¬ ("C" ∈ specReachable unreachNodes unreachEdges "A") ∧
    disconnectedNodesB unreachNodes unreachEdges = [] := by
  refine ⟨by decide, by decide, by decide⟩

/-! ### C5: the cycle error is a constant message -/

/-- C5 (amended): whenever the cycle detector fires, the validator reports the
one fixed cycle message (which names no nodes) and the verdict is invalid. -/
theorem cycle_error_constant (nodes : List WNode) (edges : List WEdge)
    (h : detectCycleB nodes edges = true) :
    cycleMsg ∈ validateB nodes edges ∧ isValidB nodes edges = false := by
  have hmem : cycleMsg ∈ validateB nodes edges := by
    rw [validateB_eq, h]
    refine List.mem_append.mpr (Or.inl (List.mem_append.mpr (Or.inl ?_)))
    rw [if_pos rfl]
    simp
  exact ⟨hmem, isEmpty_false_of_mem hmem⟩

/-- Witness for C5 (amended), at the two-node cycle A⇄B. -/
theorem cycle_error_constant_witness :
    cycleMsg ∈ validateB twoCycleNodes twoCycleEdges ∧
    isValidB twoCycleNodes twoCycleEdges = false :=
  cycle_error_constant twoCycleNodes twoCycleEdges (by decide)

/-- C5 counterexample: for the graph with edges A→B and B→A, validation fails
with exactly the constant cycle message, and that message names neither node
A nor node B — refuting the claim that the implicated pair is reported. -/
theorem cycle_error_names_no_nodes :
    validateB twoCycleNodes twoCycleEdges = [cycleMsg] ∧
    decide ("A".data <:+: cycleMsg.data) = false ∧
    decide ("B".data <:+: cycleMsg.data) = false := by
  refine ⟨by decide, by decide, by decide⟩

/-! ### C6: refusing to run an invalid workflow -/

/-- C6 (amended): with a non-empty error list neither run handler starts
execution — the designer's preview reports the full joined error list, while
page.tsx's run handler reports only a fixed failure message; with an empty
error list both start execution. -/
theorem run_refused_when_invalid (nodes : List WNode) (edges : List WEdge) :
    (designerValidate nodes edges ≠ [] →
      handleRunPreview nodes edges = RunOutcome.rejected
        (previewHeader ++ String.intercalate "\n" (designerValidate nodes edges))) ∧
    (designerValidate nodes edges = [] →
      handleRunPreview nodes edges = RunOutcome.started) ∧
    (pageValidate nodes edges ≠ [] →
      pageHandleRun (isValidPage nodes edges) = RunOutcome.rejected runRefusedMsg) ∧
    (pageValidate nodes edges = [] →
      pageHandleRun (isValidPage nodes edges) = RunOutcome.started) := by
  refine ⟨fun hne => ?_, fun he => ?_, fun hne => ?_, fun he => ?_⟩
  · have hl : (designerValidate nodes edges).length > 0 := List.length_pos.mpr hne
    simp [handleRunPreview, hl]
  · simp [handleRunPreview, he]
  · have hv : isValidPage nodes edges = false := by
      rcases hval : pageValidate nodes edges with _ | ⟨a, l⟩
      · exact absurd hval hne
      · unfold isValidPage
        rw [hval]
        rfl
    simp [pageHandleRun, hv]
  · have hv : isValidPage nodes edges = true := by
      unfold isValidPage
      rw [he]
      rfl
    simp [pageHandleRun, hv]

/-- Witness for C6 (amended), at the invalid graph A⇄B (invalid for both the
designer's and page.tsx's validator). -/
theorem run_refused_when_invalid_witness :
    handleRunPreview twoCycleNodes twoCycleEdges = RunOutcome.rejected
      (previewHeader ++ String.intercalate "\n"
        (designerValidate twoCycleNodes twoCycleEdges)) ∧
    pageHandleRun (isValidPage twoCycleNodes twoCycleEdges)
      = RunOutcome.rejected runRefusedMsg :=
  ⟨(run_refused_when_invalid twoCycleNodes twoCycleEdges).1 (by decide),
   (run_refused_when_invalid twoCycleNodes twoCycleEdges).2.2.1 (by decide)⟩

/-- C6 counterexample: for the invalid graph A⇄B, page.tsx's run handler
reports a fixed message that does not contain the validation error — refuting
"the full error list is reported to the caller" for that handler. -/
theorem run_refusal_not_full_list :
    pageValidate twoCycleNodes twoCycleEdges = [cycleMsg] ∧
    pageHandleRun (isValidPage twoCycleNodes twoCycleEdges)
      = RunOutcome.rejected runRefusedMsg ∧
    decide (cycleMsg.data <:+: runRefusedMsg.data) = false := by
  refine ⟨by decide, by decide, by decide⟩

/-! ### C7/C10: the connection handler -/

/-- C7 counterexample: `handleConnectNodes` performs no endpoint-existence
check — invoked with ids X, Y that are not in the node set it still creates
the edge, so the resulting state violates the endpoints-exist invariant. -/
theorem connect_no_endpoint_check :
    handleConnectNodes [] "X" "Y" = [⟨"edge_X_Y", "X", "Y"⟩] ∧
    ¬ wfGraph [⟨"A", "A", "agent"⟩] (handleConnectNodes [] "X" "Y") := by
  refine ⟨by decide, by decide⟩

/-- C7 (amended): `handleConnectNodes` rejects a self-connection (source =
target), leaving the edge set unchanged; in every other case it either leaves
the edge set unchanged (duplicate) or appends exactly one edge with the given
endpoints — it never checks that the endpoints exist. -/
theorem connect_self_loop_rejected (edges : List WEdge) (s t : String) :
    (s = t → handleConnectNodes edges s t = edges) ∧
    (handleConnectNodes edges s t = edges ∨
      handleConnectNodes edges s t
        = edges ++ [⟨"edge_" ++ s ++ "_" ++ t, s, t⟩]) := by
  constructor
  · intro h
    unfold handleConnectNodes
    rw [if_pos (by simp [h])]
  · unfold handleConnectNodes
    by_cases h1 : (s == t) = true
    · rw [if_pos h1]
      exact Or.inl rfl
    · rw [if_neg h1]
      by_cases h2 : (edges.any fun e => e.source == s && e.target == t) = true
      · rw [if_pos h2]
        exact Or.inl rfl
      · rw [if_neg h2]
        exact Or.inr rfl

/-- Witness for C7 (amended): a self-connection attempt on A leaves the edge
set unchanged. -/
theorem connect_self_loop_rejected_witness :
    handleConnectNodes [] "A" "A" = [] :=
  (connect_self_loop_rejected [] "A" "A").1 rfl

/-- No two edges share a (source, target) pair. -/
def pairNodup (edges : List WEdge) : Prop :=
  List.Pairwise (fun e₁ e₂ => ¬(e₁.source = e₂.source ∧ e₁.target = e₂.target)) edges

/-- C10: an attempt to connect an already-connected (source, target) pair
leaves the edge set unchanged, and the handler preserves pairwise-distinct
(source, target) pairs, so edge sets built through it never hold duplicates. -/
theorem duplicate_connection_rejected (edges : List WEdge) (s t : String) :
    ((∃ e ∈ edges, e.source = s ∧ e.target = t) →
      handleConnectNodes edges s t = edges) ∧
    (pairNodup edges → pairNodup (handleConnectNodes edges s t)) := by
  constructor
  · rintro ⟨e, he, hs, ht⟩
    unfold handleConnectNodes
    by_cases h1 : (s == t) = true
    · rw [if_pos h1]
    · rw [if_neg h1, if_pos]
      exact List.any_eq_true.mpr ⟨e, he, by simp [hs, ht]⟩
  · intro hnd
    unfold handleConnectNodes
    by_cases h1 : (s == t) = true
    · rw [if_pos h1]
      exact hnd
    · rw [if_neg h1]
      by_cases h2 : (edges.any fun e => e.source == s && e.target == t) = true
      · rw [if_pos h2]
        exact hnd
      · rw [if_neg h2]
        unfold pairNodup at hnd ⊢
        rw [List.pairwise_append]
        refine ⟨hnd, List.pairwise_singleton _ _, ?_⟩
        intro e he e' he'
        rw [List.mem_singleton] at he'
        subst he'
        rintro ⟨hs, ht⟩
        exact h2 (List.any_eq_true.mpr ⟨e, he, by simp [hs, ht]⟩)

/-- Witness for C10: re-connecting the existing pair (A, B) changes nothing
and keeps the edge list duplicate-free. -/
theorem duplicate_connection_rejected_witness :
    handleConnectNodes [⟨"e1", "A", "B"⟩] "A" "B" = [⟨"e1", "A", "B"⟩] ∧
    pairNodup (handleConnectNodes [⟨"e1", "A", "B"⟩] "A" "B") :=
  ⟨(duplicate_connection_rejected [⟨"e1", "A", "B"⟩] "A" "B").1
      ⟨⟨"e1", "A", "B"⟩, List.mem_singleton.mpr rfl, rfl, rfl⟩,
   (duplicate_connection_rejected [⟨"e1", "A", "B"⟩] "A" "B").2
      (List.pairwise_singleton _ _)⟩

/-! ### C9: node deletion -/

/-- C9: deleting a node keeps exactly the other nodes and exactly the edges
not touching the deleted node, and preserves the no-dangling-endpoint
invariant. -/
theorem delete_node_frame (nodes : List WNode) (edges : List WEdge)
    (nodeId : String) :
    (∀ n, n ∈ (handleNodeDeleted nodes edges nodeId).1 ↔
      (n ∈ nodes ∧ n.id ≠ nodeId)) ∧
    (∀ e, e ∈ (handleNodeDeleted nodes edges nodeId).2 ↔
      (e ∈ edges ∧ e.source ≠ nodeId ∧ e.target ≠ nodeId)) ∧
    (wfGraph nodes edges →
      wfGraph (handleNodeDeleted nodes edges nodeId).1
        (handleNodeDeleted nodes edges nodeId).2) := by
  have hn : ∀ n, n ∈ (handleNodeDeleted nodes edges nodeId).1 ↔
      (n ∈ nodes ∧ n.id ≠ nodeId) := by
    intro n
    unfold handleNodeDeleted
    simp [List.mem_filter]
  have he : ∀ e, e ∈ (handleNodeDeleted nodes edges nodeId).2 ↔
      (e ∈ edges ∧ e.source ≠ nodeId ∧ e.target ≠ nodeId) := by
    intro e
    unfold handleNodeDeleted
    simp [List.mem_filter]
  refine ⟨hn, he, fun hwf => ?_⟩
  intro e hee
  obtain ⟨hee', hs, ht⟩ := (he e).mp hee
  obtain ⟨hsrc, htgt⟩ := hwf e hee'
  constructor
  · obtain ⟨n, hn', hid⟩ := List.mem_map.mp hsrc
    exact List.mem_map.mpr ⟨n, (hn n).mpr ⟨hn', by rw [hid]; exact hs⟩, hid⟩
  · obtain ⟨n, hn', hid⟩ := List.mem_map.mp htgt
    exact List.mem_map.mpr ⟨n, (hn n).mpr ⟨hn', by rw [hid]; exact ht⟩, hid⟩

/-- Witness for C9: deleting B from A→B removes node B and its edge, and the
result still satisfies the invariant. -/
theorem delete_node_frame_witness :
    (⟨"e1", "A", "B"⟩ : WEdge) ∈ isoEdges ∧
    (handleNodeDeleted isoNodes isoEdges "B").2 = [] ∧
    wfGraph (handleNodeDeleted isoNodes isoEdges "B").1
      (handleNodeDeleted isoNodes isoEdges "B").2 :=
  ⟨List.mem_singleton.mpr rfl, by decide,
   (delete_node_frame isoNodes isoEdges "B").2.2 (by decide)⟩

/-! ### C8: comparing the three validators -/

def chainNodes : List WNode := [⟨"A", "A", "agent"⟩, ⟨"B", "B", "agent"⟩]

def chainEdges : List WEdge := [⟨"e1", "A", "B"⟩]

/-- C8 counterexample: on the two-agent chain A→B, WorkflowBuilder's validator
returns no errors while the designer's does (it demands input/output-typed
nodes); on the fork A→B, A→C, WorkflowBuilder returns no errors while
page.tsx reports two end nodes — the three verdicts are not equivalent. -/
theorem validators_not_equivalent :
    validateB chainNodes chainEdges = [] ∧
    designerValidate chainNodes chainEdges ≠ [] ∧
    validateB twoEndNodes twoEndEdges = [] ∧
    pageValidate twoEndNodes twoEndEdges ≠ [] := by
  refine ⟨by decide, by decide, by decide, by decide⟩

/-- C8 (amended): page.tsx's validator equals WorkflowBuilder's plus the
multiple-end-node check — its error list extends builder's by at most the end
message, and its verdict is builder's verdict conjoined with end-count ≤ 1;
the designer's validator genuinely differs (see the counterexample). -/
theorem page_refines_builder (nodes : List WNode) (edges : List WEdge) :
    pageValidate nodes edges = validateB nodes edges
      ++ (if (endNodesP nodes edges).length > 1
          then [endMsg (endNodesP nodes edges).length] else []) ∧
    isValidPage nodes edges
      = (isValidB nodes edges && decide ((endNodesP nodes edges).length ≤ 1)) := by
  have h1 : pageValidate nodes edges = validateB nodes edges
      ++ (if (endNodesP nodes edges).length > 1
          then [endMsg (endNodesP nodes edges).length] else []) := by
    rw [pageValidate_eq, validateB_eq]
  refine ⟨h1, ?_⟩
  by_cases hgt : (endNodesP nodes edges).length > 1
  · have hd : decide ((endNodesP nodes edges).length ≤ 1) = false := by
      simp only [decide_eq_false_iff_not]
      omega
    have happ : ∀ (l : List String) (a : String), (l ++ [a]).isEmpty = false := by
      intro l a
      cases l <;> rfl
    unfold isValidPage
    rw [h1, if_pos hgt, happ, hd, Bool.and_false]
  · have hd : decide ((endNodesP nodes edges).length ≤ 1) = true := by
      simp only [decide_eq_true_eq]
      omega
    unfold isValidPage isValidB
    rw [h1, if_neg hgt, List.append_nil, hd, Bool.and_true]

/-! ### Fuel adequacy

The JS `detectCycle` functions have no fuel; the embeddings pass
`nodes.length + edges.length + 1` (builder/page) and `2 * edges.length + 1`
(designer).  The lemmas below show these fuels are past the stabilization
point: any fuel at least that large yields the same answer, so the fuel-out
branch of the embedding never influences `detectCycleB` / `dDetectCycle`. -/

def unvisitedCount (u v : List String) : Nat :=
  (u.filter (fun x => decide (x ∉ v))).length

lemma unvisitedCount_le (u v w : List String) (h : ∀ x ∈ v, x ∈ w) :
    unvisitedCount u w ≤ unvisitedCount u v := by
  unfold unvisitedCount
  induction u with
  | nil => simp
  | cons a u ih =>
    by_cases haw : a ∈ w
    · by_cases hav : a ∈ v
      · simpa [List.filter_cons, haw, hav] using ih
      · simp only [List.filter_cons, show decide (a ∉ w) = false by simp [haw],
          show decide (a ∉ v) = true by simp [hav], Bool.false_eq_true, if_false,
          if_true, List.length_cons]
        exact Nat.le_succ_of_le ih
    · have hav : a ∉ v := fun hv => haw (h a hv)
      simp only [List.filter_cons, show decide (a ∉ w) = true by simp [haw],
        show decide (a ∉ v) = true by simp [hav], if_true, List.length_cons]
      exact Nat.succ_le_succ ih

lemma unvisitedCount_cons_lt (u v : List String) (node : String)
    (hu : node ∈ u) (hv : node ∉ v) :
    unvisitedCount u (node :: v) < unvisitedCount u v := by
  unfold unvisitedCount
  induction u with
  | nil => exact absurd hu (List.not_mem_nil _)
  | cons a u ih =>
    by_cases han : a = node
    · subst han
      simp only [List.filter_cons, show decide (a ∉ a :: v) = false by simp,
        show decide (a ∉ v) = true by simp [hv], Bool.false_eq_true, if_false,
        if_true, List.length_cons]
      have hle := unvisitedCount_le u v (a :: v) (fun x hx => List.mem_cons_of_mem _ hx)
      unfold unvisitedCount at hle
      exact Nat.lt_succ_of_le hle
    · have hnu : node ∈ u := by
        rcases List.mem_cons.mp hu with h1 | h1
        · exact absurd h1.symm han
        · exact h1
      have hrec := ih hnu
      by_cases hav : a ∈ v
      · simpa [List.filter_cons, hav, han] using hrec
      · simp only [List.filter_cons, show decide (a ∉ node :: v) = true by simp [han, hav],
          show decide (a ∉ v) = true by simp [hav], if_true, List.length_cons]
        exact Nat.succ_lt_succ hrec

lemma dfsLoop_grows
    (step : String → List String → List String → Bool × List String × List String)
    (hstep : ∀ n v r b v' r', step n v r = (b, v', r') → ∀ x ∈ v, x ∈ v') :
    ∀ (l v r : List String) (b : Bool) (v' r' : List String),
      dfsLoop step l v r = (b, v', r') → ∀ x ∈ v, x ∈ v' := by
  intro l
  induction l with
  | nil =>
    intro v r b v' r' heq
    replace heq : ((false, v, r) : Bool × List String × List String) = (b, v', r') := heq
    simp only [Prod.mk.injEq] at heq
    rw [← heq.2.1]
    exact fun x hx => hx
  | cons n ns ih =>
    intro v r b v' r' heq
    simp only [dfsLoop] at heq
    by_cases hnv : n ∈ v
    · rw [if_pos hnv] at heq
      by_cases hnr : n ∈ r
      · rw [if_pos hnr] at heq
        simp only [Prod.mk.injEq] at heq
        rw [← heq.2.1]
        exact fun x hx => hx
      · rw [if_neg hnr] at heq
        exact ih v r b v' r' heq
    · rw [if_neg hnv] at heq
      rcases h1 : step n v r with ⟨b₁, v₁, r₁⟩
      rw [h1] at heq
      have hgrow := hstep n v r b₁ v₁ r₁ h1
      cases b₁ with
      | true =>
        replace heq : ((true, v₁, r₁) : Bool × List String × List String) = (b, v', r') := heq
        simp only [Prod.mk.injEq] at heq
        rw [← heq.2.1]
        exact hgrow
      | false =>
        replace heq : (if n ∈ r₁ then ((true, v₁, r₁) : Bool × List String × List String)
            else dfsLoop step ns v₁ r₁) = (b, v', r') := heq
        by_cases hnr₁ : n ∈ r₁
        · rw [if_pos hnr₁] at heq
          simp only [Prod.mk.injEq] at heq
          rw [← heq.2.1]
          exact hgrow
        · rw [if_neg hnr₁] at heq
          exact fun x hx => ih v₁ r₁ b v' r' heq x (hgrow x hx)

lemma dfsN_grows (g : String → List String) :
    ∀ (fuel : Nat) (node : String) (v r : List String) (b : Bool) (v' r' : List String),
      dfsN g fuel node v r = (b, v', r') → ∀ x ∈ v, x ∈ v' := by
  intro fuel
  induction fuel with
  | zero =>
    intro node v r b v' r' heq
    replace heq : ((true, v, r) : Bool × List String × List String) = (b, v', r') := heq
    simp only [Prod.mk.injEq] at heq
    rw [← heq.2.1]
    exact fun x hx => hx
  | succ f ih =>
    intro node v r b v' r' heq
    simp only [dfsN] at heq
    by_cases hnv : node ∈ v
    · rw [if_pos hnv] at heq
      simp only [Prod.mk.injEq] at heq
      rw [← heq.2.1]
      exact fun x hx => hx
    · rw [if_neg hnv] at heq
      rcases h1 : dfsLoop (dfsN g f) (g node) (node :: v) (node :: r) with ⟨b₁, v₁, r₁⟩
      rw [h1] at heq
      have hgrow : ∀ x ∈ v, x ∈ v₁ := fun x hx =>
        dfsLoop_grows (dfsN g f) (fun n v r b v' r' h => ih n v r b v' r' h)
          (g node) (node :: v) (node :: r) b₁ v₁ r₁ h1 x (List.mem_cons_of_mem _ hx)
      cases b₁ with
      | true =>
        replace heq : ((true, v₁, r₁) : Bool × List String × List String) = (b, v', r') := heq
        simp only [Prod.mk.injEq] at heq
        rw [← heq.2.1]
        exact hgrow
      | false =>
        replace heq : ((false, v₁, r₁.erase node) : Bool × List String × List String)
            = (b, v', r') := heq
        simp only [Prod.mk.injEq] at heq
        rw [← heq.2.1]
        exact hgrow

lemma dDfsN_grows (g : String → List String) :
    ∀ (fuel : Nat) (node : String) (v r : List String) (b : Bool) (v' r' : List String),
      dDfsN g fuel node v r = (b, v', r') → ∀ x ∈ v, x ∈ v' := by
  intro fuel
  induction fuel with
  | zero =>
    intro node v r b v' r' heq
    replace heq : ((true, v, r) : Bool × List String × List String) = (b, v', r') := heq
    simp only [Prod.mk.injEq] at heq
    rw [← heq.2.1]
    exact fun x hx => hx
  | succ f ih =>
    intro node v r b v' r' heq
    simp only [dDfsN] at heq
    by_cases hnr : node ∈ r
    · rw [if_pos hnr] at heq
      simp only [Prod.mk.injEq] at heq
      rw [← heq.2.1]
      exact fun x hx => hx
    · rw [if_neg hnr] at heq
      rcases h1 : dfsLoop (dDfsN g f) (g node) (insertS v node) (insertS r node)
        with ⟨b₁, v₁, r₁⟩
      rw [h1] at heq
      have hgrow : ∀ x ∈ v, x ∈ v₁ := fun x hx =>
        dfsLoop_grows (dDfsN g f) (fun n v r b v' r' h => ih n v r b v' r' h)
          (g node) (insertS v node) (insertS r node) b₁ v₁ r₁ h1 x
          ((mem_insertS v node x).mpr (Or.inl hx))
      cases b₁ with
      | true =>
        replace heq : ((true, v₁, r₁) : Bool × List String × List String) = (b, v', r') := heq
        simp only [Prod.mk.injEq] at heq
        rw [← heq.2.1]
        exact hgrow
      | false =>
        replace heq : ((false, v₁, r₁.erase node) : Bool × List String × List String)
            = (b, v', r') := heq
        simp only [Prod.mk.injEq] at heq
        rw [← heq.2.1]
        exact hgrow

/-- On a universe `u` closed under the adjacency map, the builder/page DFS
answer does not depend on the fuel once the fuel exceeds the number of
unvisited universe elements. -/
lemma dfsN_fuel_irrel (g : String → List String) (u : List String)
    (hu : ∀ x ∈ u, ∀ y ∈ g x, y ∈ u) :
    ∀ (f₁ f₂ : Nat) (node : String) (v r : List String), node ∈ u →
      unvisitedCount u v < f₁ → unvisitedCount u v < f₂ →
      dfsN g f₁ node v r = dfsN g f₂ node v r := by
  intro f₁
  induction f₁ with
  | zero =>
    intro f₂ node v r _ h₁ _
    exact absurd h₁ (Nat.not_lt_zero _)
  | succ a ih =>
    intro f₂ node v r hn h₁ h₂
    cases f₂ with
    | zero => exact absurd h₂ (Nat.not_lt_zero _)
    | succ b =>
      by_cases hnv : node ∈ v
      · simp only [dfsN]
        rw [if_pos hnv, if_pos hnv]
      · have hlt := unvisitedCount_cons_lt u v node hn hnv
        have hca : unvisitedCount u (node :: v) < a := by omega
        have hcb : unvisitedCount u (node :: v) < b := by omega
        have hloop : ∀ (l : List String), (∀ n ∈ l, n ∈ u) →
            ∀ (w r' : List String),
            unvisitedCount u w < a → unvisitedCount u w < b →
            dfsLoop (dfsN g a) l w r' = dfsLoop (dfsN g b) l w r' := by
          intro l
          induction l with
          | nil => intro _ w r' _ _; rfl
          | cons n ns ihl =>
            intro hl w r' hwa hwb
            simp only [dfsLoop]
            by_cases hnw : n ∈ w
            · rw [if_pos hnw, if_pos hnw]
              by_cases hnr : n ∈ r'
              · rw [if_pos hnr, if_pos hnr]
              · rw [if_neg hnr, if_neg hnr]
                exact ihl (fun m hm => hl m (List.mem_cons_of_mem _ hm)) w r' hwa hwb
            · rw [if_neg hnw, if_neg hnw]
              have hstep := ih b n w r' (hl n (List.mem_cons_self _ _)) hwa hwb
              rw [← hstep]
              rcases hres : dfsN g a n w r' with ⟨bb, v₁, r₁⟩
              cases bb with
              | true => rfl
              | false =>
                have hsub : ∀ x ∈ w, x ∈ v₁ := dfsN_grows g a n w r' false v₁ r₁ hres
                have hc₁ := unvisitedCount_le u w v₁ hsub
                show (if n ∈ r₁ then ((true, v₁, r₁) : Bool × List String × List String)
                    else dfsLoop (dfsN g a) ns v₁ r₁)
                  = (if n ∈ r₁ then (true, v₁, r₁) else dfsLoop (dfsN g b) ns v₁ r₁)
                by_cases hnr₁ : n ∈ r₁
                · rw [if_pos hnr₁, if_pos hnr₁]
                · rw [if_neg hnr₁, if_neg hnr₁]
                  exact ihl (fun m hm => hl m (List.mem_cons_of_mem _ hm)) v₁ r₁
                    (Nat.lt_of_le_of_lt hc₁ hwa) (Nat.lt_of_le_of_lt hc₁ hwb)
        simp only [dfsN]
        rw [if_neg hnv, if_neg hnv,
          hloop (g node) (hu node hn) (node :: v) (node :: r) hca hcb]

/-- Fuel irrelevance for the designer's DFS (whose call sites always pass an
unvisited node). -/
lemma dDfsN_fuel_irrel (g : String → List String) (u : List String)
    (hu : ∀ x ∈ u, ∀ y ∈ g x, y ∈ u) :
    ∀ (f₁ f₂ : Nat) (node : String) (v r : List String), node ∈ u → node ∉ v →
      unvisitedCount u v < f₁ → unvisitedCount u v < f₂ →
      dDfsN g f₁ node v r = dDfsN g f₂ node v r := by
  intro f₁
  induction f₁ with
  | zero =>
    intro f₂ node v r _ _ h₁ _
    exact absurd h₁ (Nat.not_lt_zero _)
  | succ a ih =>
    intro f₂ node v r hn hnv h₁ h₂
    cases f₂ with
    | zero => exact absurd h₂ (Nat.not_lt_zero _)
    | succ b =>
      by_cases hnr : node ∈ r
      · simp only [dDfsN]
        rw [if_pos hnr, if_pos hnr]
      · have hlt := unvisitedCount_cons_lt u v node hn hnv
        have hca : unvisitedCount u (node :: v) < a := by omega
        have hcb : unvisitedCount u (node :: v) < b := by omega
        have hloop : ∀ (l : List String), (∀ n ∈ l, n ∈ u) →
            ∀ (w r' : List String),
            unvisitedCount u w < a → unvisitedCount u w < b →
            dfsLoop (dDfsN g a) l w r' = dfsLoop (dDfsN g b) l w r' := by
          intro l
          induction l with
          | nil => intro _ w r' _ _; rfl
          | cons n ns ihl =>
            intro hl w r' hwa hwb
            simp only [dfsLoop]
            by_cases hnw : n ∈ w
            · rw [if_pos hnw, if_pos hnw]
              by_cases hnr' : n ∈ r'
              · rw [if_pos hnr', if_pos hnr']
              · rw [if_neg hnr', if_neg hnr']
                exact ihl (fun m hm => hl m (List.mem_cons_of_mem _ hm)) w r' hwa hwb
            · rw [if_neg hnw, if_neg hnw]
              have hstep := ih b n w r' (hl n (List.mem_cons_self _ _)) hnw hwa hwb
              rw [← hstep]
              rcases hres : dDfsN g a n w r' with ⟨bb, v₁, r₁⟩
              cases bb with
              | true => rfl
              | false =>
                have hsub : ∀ x ∈ w, x ∈ v₁ := dDfsN_grows g a n w r' false v₁ r₁ hres
                have hc₁ := unvisitedCount_le u w v₁ hsub
                show (if n ∈ r₁ then ((true, v₁, r₁) : Bool × List String × List String)
                    else dfsLoop (dDfsN g a) ns v₁ r₁)
                  = (if n ∈ r₁ then (true, v₁, r₁) else dfsLoop (dDfsN g b) ns v₁ r₁)
                by_cases hnr₁ : n ∈ r₁
                · rw [if_pos hnr₁, if_pos hnr₁]
                · rw [if_neg hnr₁, if_neg hnr₁]
                  exact ihl (fun m hm => hl m (List.mem_cons_of_mem _ hm)) v₁ r₁
                    (Nat.lt_of_le_of_lt hc₁ hwa) (Nat.lt_of_le_of_lt hc₁ hwb)
        simp only [dDfsN]
        rw [if_neg hnr, if_neg hnr,
          show insertS v node = node :: v from if_neg hnv,
          show insertS r node = node :: r from if_neg hnr,
          hloop (g node) (hu node hn) (node :: v) (node :: r) hca hcb]

/-- Fuel irrelevance for the whole outer loop of the builder/page detector. -/
lemma detectOuter_fuel_irrel (g : String → List String) (u : List String)
    (hu : ∀ x ∈ u, ∀ y ∈ g x, y ∈ u) :
    ∀ (ns : List WNode) (v r : List String) (f₁ f₂ : Nat),
      (∀ n ∈ ns, n.id ∈ u) →
      unvisitedCount u v < f₁ → unvisitedCount u v < f₂ →
      detectOuter g f₁ ns v r = detectOuter g f₂ ns v r := by
  intro ns
  induction ns with
  | nil => intro v r f₁ f₂ _ _ _; rfl
  | cons n ns ih =>
    intro v r f₁ f₂ hl h₁ h₂
    simp only [detectOuter]
    rw [← dfsN_fuel_irrel g u hu f₁ f₂ n.id v r (hl n (List.mem_cons_self _ _)) h₁ h₂]
    rcases hres : dfsN g f₁ n.id v r with ⟨bb, v₁, r₁⟩
    cases bb with
    | true => rfl
    | false =>
      have hsub : ∀ x ∈ v, x ∈ v₁ := dfsN_grows g f₁ n.id v r false v₁ r₁ hres
      have hc₁ := unvisitedCount_le u v v₁ hsub
      show detectOuter g f₁ ns v₁ r₁ = detectOuter g f₂ ns v₁ r₁
      exact ih v₁ r₁ f₁ f₂ (fun m hm => hl m (List.mem_cons_of_mem _ hm))
        (Nat.lt_of_le_of_lt hc₁ h₁) (Nat.lt_of_le_of_lt hc₁ h₂)

/-- Fuel irrelevance for the whole outer loop of the designer's detector. -/
lemma dDetectOuter_fuel_irrel (g : String → List String) (u : List String)
    (hu : ∀ x ∈ u, ∀ y ∈ g x, y ∈ u) :
    ∀ (ks : List String) (v r : List String) (f₁ f₂ : Nat),
      (∀ k ∈ ks, k ∈ u) →
      unvisitedCount u v < f₁ → unvisitedCount u v < f₂ →
      dDetectOuter g f₁ ks v r = dDetectOuter g f₂ ks v r := by
  intro ks
  induction ks with
  | nil => intro v r f₁ f₂ _ _ _; rfl
  | cons k ks ih =>
    intro v r f₁ f₂ hl h₁ h₂
    simp only [dDetectOuter]
    by_cases hkv : k ∈ v
    · rw [if_pos hkv, if_pos hkv]
      exact ih v r f₁ f₂ (fun m hm => hl m (List.mem_cons_of_mem _ hm)) h₁ h₂
    · rw [if_neg hkv, if_neg hkv,
        ← dDfsN_fuel_irrel g u hu f₁ f₂ k v r (hl k (List.mem_cons_self _ _)) hkv h₁ h₂]
      rcases hres : dDfsN g f₁ k v r with ⟨bb, v₁, r₁⟩
      cases bb with
      | true => rfl
      | false =>
        have hsub : ∀ x ∈ v, x ∈ v₁ := dDfsN_grows g f₁ k v r false v₁ r₁ hres
        have hc₁ := unvisitedCount_le u v v₁ hsub
        show dDetectOuter g f₁ ks v₁ r₁ = dDetectOuter g f₂ ks v₁ r₁
        exact ih v₁ r₁ f₁ f₂ (fun m hm => hl m (List.mem_cons_of_mem _ hm))
          (Nat.lt_of_le_of_lt hc₁ h₁) (Nat.lt_of_le_of_lt hc₁ h₂)

/-- The fuel passed by `detectCycleB` is past the stabilization point: every
fuel at least `nodes.length + edges.length + 1` produces the same answer (the
visitable ids are the listed node ids and the edge targets, of which there
are at most `nodes.length + edges.length`). -/
theorem detectCycleB_fuel_stable (nodes : List WNode) (edges : List WEdge)
    (fuel : Nat) (h : nodes.length + edges.length + 1 ≤ fuel) :
    detectOuter (adj edges) fuel nodes [] [] = detectCycleB nodes edges := by
  have hlen : (nodes.map WNode.id ++ edges.map WEdge.target).length
      = nodes.length + edges.length := by simp
  have hle := List.length_filter_le (fun x => decide (x ∉ ([] : List String)))
    (nodes.map WNode.id ++ edges.map WEdge.target)
  unfold detectCycleB
  apply detectOuter_fuel_irrel (adj edges)
    (nodes.map WNode.id ++ edges.map WEdge.target)
  · intro x _ y hy
    unfold adj at hy
    obtain ⟨e, he, rfl⟩ := List.mem_map.mp hy
    exact List.mem_append.mpr
      (Or.inr (List.mem_map.mpr ⟨e, List.mem_of_mem_filter he, rfl⟩))
  · intro n hn
    exact List.mem_append.mpr (Or.inl (List.mem_map.mpr ⟨n, hn, rfl⟩))
  · unfold unvisitedCount
    omega
  · unfold unvisitedCount
    omega

/-- The fuel passed by `dDetectCycle` is past the stabilization point: every
fuel at least `2 * edges.length + 1` produces the same answer (the visitable
ids are the edge sources and targets). -/
theorem dDetectCycle_fuel_stable (edges : List WEdge) (fuel : Nat)
    (h : 2 * edges.length + 1 ≤ fuel) :
    dDetectOuter (adj edges) fuel (adjKeys edges) [] [] = dDetectCycle edges := by
  have hlen : (edges.map WEdge.source ++ edges.map WEdge.target).length
      = 2 * edges.length := by
    simp
    omega
  have hle := List.length_filter_le (fun x => decide (x ∉ ([] : List String)))
    (edges.map WEdge.source ++ edges.map WEdge.target)
  unfold dDetectCycle
  apply dDetectOuter_fuel_irrel (adj edges)
    (edges.map WEdge.source ++ edges.map WEdge.target)
  · intro x _ y hy
    unfold adj at hy
    obtain ⟨e, he, rfl⟩ := List.mem_map.mp hy
    exact List.mem_append.mpr
      (Or.inr (List.mem_map.mpr ⟨e, List.mem_of_mem_filter he, rfl⟩))
  · intro k hk
    obtain ⟨e, he, hs⟩ := (mem_adjKeys edges k).mp hk
    exact List.mem_append.mpr (Or.inl (List.mem_map.mpr ⟨e, he, hs⟩))
  · unfold unvisitedCount
    omega
  · unfold unvisitedCount
    omega
